import Mathlib

/-!
Verification of the de Bruijn assembler (`debruijn.py`).

The Python source is shallowly embedded: Python strings become `List Char`,
the `networkx.DiGraph` becomes an explicit `Graph` record holding the node
list and the weighted edge list in insertion order, Python dicts become
association lists in insertion order, `float` averages of integer weights
become exact rationals (`ℚ`), and a Python function that can raise an
exception returns an `Option` (with `none` for the raising run).
-/

namespace DeBruijn

/-- A nucleotide string: Python strings are modelled as lists of characters. -/
abbrev DNA := List Char

/-- A weighted directed graph, modelling the `networkx.DiGraph` used by the
source: `nodes` in insertion order, and each directed edge `(u, v, w)` with
its integer `weight` attribute `w`, in insertion order. -/
structure Graph (α : Type) where
  nodes : List α
  edges : List (α × α × Nat)
deriving DecidableEq

variable {α : Type} [DecidableEq α]

/-- Add a node at the end of the node list when it is not already present,
as `networkx` does when an edge endpoint is new. -/
def addNode (ns : List α) (u : α) : List α :=
  if u ∈ ns then ns else ns ++ [u]

/-- `graph.add_edge(u, v, weight = w)`: registers the endpoints, and either
overwrites the weight of an existing `(u, v)` edge or appends a new edge. -/
def addEdge (g : Graph α) (u v : α) (w : Nat) : Graph α :=
  { nodes := addNode (addNode g.nodes u) v,
    edges :=
      if g.edges.any (fun e => decide (e.1 = u) && decide (e.2.1 = v)) then
        g.edges.map (fun e => if e.1 = u ∧ e.2.1 = v then (u, v, w) else e)
      else g.edges ++ [(u, v, w)] }

/-- `graph.remove_nodes_from(l)`: drops the listed nodes (absent ones are
ignored) together with every edge incident to one of them. -/
def removeNodesFrom (g : Graph α) (l : List α) : Graph α :=
  { nodes := g.nodes.filter (fun n => decide (n ∉ l)),
    edges := g.edges.filter (fun e => decide (e.1 ∉ l) && decide (e.2.1 ∉ l)) }

/-- `graph.successors(u)` in adjacency insertion order. -/
def successors (g : Graph α) (u : α) : List α :=
  (g.edges.filter (fun e => decide (e.1 = u))).map (fun e => e.2.1)

/-- The edge list of `graph.subgraph(path)`: the subgraph induced on the
node set of `path`, i.e. every edge of the graph whose two endpoints both
lie on `path` — including chord edges between non-consecutive path nodes. -/
def subgraphEdges (g : Graph α) (path : List α) : List (α × α × Nat) :=
  g.edges.filter (fun e => decide (e.1 ∈ path) && decide (e.2.1 ∈ path))

/-- Python `s[-1]` as a one-character string (`[]` on the empty string,
where Python would raise; all call sites use non-empty strings). -/
def lastStr : DNA → DNA
  | [] => []
  | [c] => [c]
  | _ :: c :: t => lastStr (c :: t)

/-- Python `list.index(x)`: the first index holding `x` (call sites only
use it with an element known to be in the list). -/
def pyIndexOf {β : Type} [DecidableEq β] : List β → β → Nat
  | [], _ => 0
  | b :: l, x => if b = x then 0 else pyIndexOf l x + 1

/-- Python `max(l)` on a list ordered by `≤`; `none` models the
`ValueError` on an empty list. -/
def pyMax {β : Type} [LinearOrder β] : List β → Option β
  | [] => none
  | b :: l => some (l.foldl max b)

/-- Evaluate an effectful map call by call, propagating the first failure:
models a Python list comprehension whose body may raise. -/
def mapOpt {β γ : Type} (f : β → Option γ) : List β → Option (List γ)
  | [] => some []
  | b :: l =>
    match f b, mapOpt f l with
    | some c, some cs => some (c :: cs)
    | _, _ => none

/-- `statistics.mean(l)` over exact rationals; `none` models the
`StatisticsError` raised on an empty list. -/
def pyMean (l : List ℚ) : Option ℚ :=
  if l = [] then none else some (l.sum / (l.length : ℚ))

/-- The sample variance `Σ (x - mean)² / (n - 1)` of a list of rationals. -/
def varianceVal (data : List ℚ) : ℚ :=
  (data.map (fun x => (x - data.sum / (data.length : ℚ)) ^ 2)).sum
    / ((data.length : ℚ) - 1)

/-- The source's `std(data) = statistics.stdev(data)`, represented by its
square, the sample variance: `statistics.stdev` raises a `StatisticsError`
on fewer than two data points (`none` here), and the source only ever uses
`std(...) > 0`, which holds iff the sample variance is positive (square
roots preserve sign on nonnegatives). -/
def std (data : List ℚ) : Option ℚ :=
  if 2 ≤ data.length then some (varianceVal data) else none

/-- The set of values Python's `random.randint(a, b)` can return: both
bounds are inclusive. -/
def randintRange (a b : Nat) : List Nat :=
  List.range' a (b + 1 - a)

/-- `cut_kmer(read, kmer_size)`: the slices `read[i : i + kmer_size]` for
every window start `i` in `range(len(read))` whose window fits, in order.
(The source takes `kmer_size` from `int` argparse input; we model the
sizes `0 ≤ k`, which cover every claim, with Python slice semantics for
nonnegative bounds.) -/
def cut_kmer (read : DNA) (kmer_size : Nat) : List DNA :=
  ((List.range read.length).filter
      (fun i => decide (i + kmer_size ≤ read.length))).map
    (fun i => (read.drop i).take kmer_size)

/-- One iteration of the dictionary update in `build_kmer_dict`: bump the
count of a known k-mer, or insert a fresh one with count 1 (the source's
`dico.get(kmer, 1)` evaluates to `1` on the missing-key branch). -/
def dictIncr (d : List (DNA × Nat)) (kmer : DNA) : List (DNA × Nat) :=
  if d.any (fun kv => decide (kv.1 = kmer)) then
    d.map (fun kv => if kv.1 = kmer then (kv.1, kv.2 + 1) else kv)
  else d ++ [(kmer, 1)]

/-- `build_kmer_dict`: counts every k-mer of every read. The source pulls
its reads from `read_fastq(fastq_file)` (an out-of-scope I/O collaborator,
spec §1); we take the resulting read sequence directly. -/
def build_kmer_dict (reads : List DNA) (kmer_size : Nat) : List (DNA × Nat) :=
  reads.foldl (fun d r => (cut_kmer r kmer_size).foldl dictIncr d) []

/-- The total of all counts in a k-mer table. -/
def tableTotal (d : List (DNA × Nat)) : Nat :=
  (d.map Prod.snd).sum

/-- `build_graph(kmer_dict)`: one directed edge per table entry, from
`kmer[0:-1]` to `kmer[1:]`, weighted by the count, in table order. -/
def build_graph (kmer_dict : List (DNA × Nat)) : Graph DNA :=
  kmer_dict.foldl
    (fun g kv => addEdge g kv.1.dropLast (kv.1.drop 1) kv.2)
    { nodes := [], edges := [] }

/-- The per-path trimming done by `remove_paths` before node removal:
keep the entry node out of the removal list unless `delete_entry_node`,
then keep the sink node out unless `delete_sink_node`. -/
def trimPath (delete_entry_node delete_sink_node : Bool) (p : List α) :
    List α :=
  let p1 := if delete_entry_node then p else p.drop 1
  if delete_sink_node then p1 else p1.dropLast

/-- `remove_paths(graph, path_list, delete_entry_node, delete_sink_node)`:
removes from the graph, path by path, every node of each listed path after
trimming its endpoints according to the two flags. -/
def remove_paths (g : Graph α) (path_list : List (List α))
    (delete_entry_node delete_sink_node : Bool) : Graph α :=
  path_list.foldl
    (fun h p => removeNodesFrom h (trimPath delete_entry_node delete_sink_node p))
    g

/-- The common step `del path_list[crit.index(max(crit))]` followed by
`remove_paths` on what is left: the entry of `path_list` sitting at the
first index of the maximal criterion value is spared, every other listed
path is removed. `none` models the exceptions of `max` on an empty list
and of `del` on an out-of-range index (unreachable at the call sites). -/
def delBestThenRemove {β : Type} [LinearOrder β] [DecidableEq β]
    (g : Graph α) (path_list : List (List α)) (crit : List β)
    (delete_entry_node delete_sink_node : Bool) : Option (Graph α) :=
  match pyMax crit with
  | none => none
  | some m =>
    if pyIndexOf crit m < path_list.length then
      some (remove_paths g (path_list.eraseIdx (pyIndexOf crit m))
        delete_entry_node delete_sink_node)
    else none

/-- `select_best_path`: keeps exactly one candidate path and removes the
others. The branch order follows the source: positive `std` of the weight
averages → spare the first path of maximal average weight; else positive
`std` of the lengths → spare the first path of maximal length; else spare
the path at index `randint(0, len(path_list))`. The extra parameter `r`
is the value drawn by the process-wide seeded `randint`, consumed only on
the tie branch; `none` models a raised exception (`StatisticsError` on
fewer than two candidates, or `IndexError` when `r` is out of range,
`randint`'s upper bound being inclusive). -/
def select_best_path (g : Graph α) (path_list : List (List α))
    (path_length : List Nat) (weight_avg_list : List ℚ)
    (delete_entry_node delete_sink_node : Bool) (r : Nat) :
    Option (Graph α) :=
  match std weight_avg_list with
  | none => none
  | some vw =>
    if 0 < vw then
      delBestThenRemove g path_list weight_avg_list
        delete_entry_node delete_sink_node
    else
      match std (path_length.map (fun (n : Nat) => (n : ℚ))) with
      | none => none
      | some vl =>
        if 0 < vl then
          delBestThenRemove g path_list path_length
            delete_entry_node delete_sink_node
        else if r < path_list.length then
          some (remove_paths g (path_list.eraseIdx r)
            delete_entry_node delete_sink_node)
        else none

/-- `path_average_weight(graph, path)`: the `statistics.mean` of the
weights of the edges of `graph.subgraph(path)` — the subgraph induced on
the path's node set, not only the consecutive edges of the path. -/
def path_average_weight (g : Graph α) (path : List α) : Option ℚ :=
  pyMean ((subgraphEdges g path).map (fun e => (e.2.2 : ℚ)))

/-- The consecutive node pairs of a path, in order. -/
def consecutivePairs (path : List α) : List (α × α) :=
  path.zip (path.drop 1)

/-- The first edge of the graph joining `u` to `v`, when one exists. -/
def findEdge (g : Graph α) (u v : α) : Option (α × α × Nat) :=
  g.edges.find? (fun e => decide (e.1 = u) && decide (e.2.1 = v))

/-- Modelled from the spec: the "path weight" of §3 — the arithmetic mean
of the path's constituent edge weights, i.e. exactly the edges linking
consecutive nodes of the path (`none` when some consecutive pair has no
edge, or the path has no edge at all). Stated for comparison with the
source's `path_average_weight`. -/
def path_average_weight_spec (g : Graph α) (path : List α) : Option ℚ :=
  match mapOpt (fun uv => findEdge g uv.1 uv.2) (consecutivePairs path) with
  | none => none
  | some es => pyMean (es.map (fun e => (e.2.2 : ℚ)))

/-- Depth-first enumeration of the simple paths from `u` to `target` that
avoid `visited`, with enough fuel to cover every simple path. -/
def simplePathsFrom (g : Graph α) (target : α) :
    Nat → α → List α → List (List α)
  | 0, _, _ => []
  | fuel + 1, u, visited =>
    if u = target then [[u]]
    else
      ((successors g u).filter (fun v => decide (v ∉ u :: visited))).flatMap
        (fun v => (simplePathsFrom g target fuel v (u :: visited)).map
          (fun p => u :: p))

/-- `nx.all_simple_paths(graph, source, target)`: every simple directed
path from `source` to `target`, as node lists, in depth-first order. -/
def allSimplePaths (g : Graph α) (source target : α) : List (List α) :=
  simplePathsFrom g target (g.nodes.length + 1) source []

/-- `solve_bubble(graph, ancestor_node, descendant_node)`: enumerate the
simple paths between the two nodes, average each one's weight, measure
each one's node count, and hand everything to `select_best_path` with the
default deletion flags. `r` is the random draw threaded through to the
tie branch. -/
def solve_bubble (g : Graph α) (ancestor_node descendant_node : α)
    (r : Nat) : Option (Graph α) :=
  let paths := allSimplePaths g ancestor_node descendant_node
  match mapOpt (path_average_weight g) paths with
  | none => none
  | some weight_avg_list =>
    select_best_path g paths (paths.map List.length) weight_avg_list
      false false r

/-- The contig built by the inner loop of `get_contigs`: the first node of
the path in full, then the last character of every subsequent node. -/
def contigOf : List DNA → DNA
  | [] => []
  | h :: t => t.foldl (fun acc node => acc ++ lastStr node) h

/-- `get_contigs(graph, starting_nodes, ending_nodes)`: for every source
then every sink, for every simple path between them, emit the overlap
contig together with its character length. -/
def get_contigs (g : Graph DNA) (starting_nodes ending_nodes : List DNA) :
    List (DNA × Nat) :=
  starting_nodes.flatMap (fun s =>
    ending_nodes.flatMap (fun e =>
      (allSimplePaths g s e).map (fun p => (contigOf p, (contigOf p).length))))

end DeBruijn

namespace DeBruijn

variable {α : Type} [DecidableEq α]

/-- A list of nonnegative rationals has a nonnegative sum. -/
theorem sum_nonneg_of (l : List ℚ) (h : ∀ x ∈ l, 0 ≤ x) : 0 ≤ l.sum := by
  induction l with
  | nil => simp
  | cons a t ih =>
    have ha := h a (by simp)
    have ht := ih (fun x hx => h x (by simp [hx]))
    simp only [List.sum_cons]
    linarith

/-- A list of nonnegative rationals sums to zero iff every entry is zero. -/
theorem sum_eq_zero_iff_of_nonneg (l : List ℚ) (h : ∀ x ∈ l, 0 ≤ x) :
    l.sum = 0 ↔ ∀ x ∈ l, x = 0 := by
  induction l with
  | nil => simp
  | cons a t ih =>
    have ha := h a (by simp)
    have ht := sum_nonneg_of t (fun x hx => h x (by simp [hx]))
    have iht := ih (fun x hx => h x (by simp [hx]))
    simp only [List.sum_cons, List.mem_cons]
    constructor
    · intro h0
      have ha0 : a = 0 := by linarith
      have hs0 : t.sum = 0 := by linarith
      intro x hx
      rcases hx with rfl | hx
      · exact ha0
      · exact iht.mp hs0 x hx
    · intro hall
      have ha0 : a = 0 := hall a (Or.inl rfl)
      have hs0 : t.sum = 0 := iht.mpr (fun x hx => hall x (Or.inr hx))
      rw [ha0, hs0, add_zero]

/-- A list whose entries all equal `c` sums to `length * c`. -/
theorem sum_const_list (l : List ℚ) (c : ℚ) (h : ∀ x ∈ l, x = c) :
    l.sum = (l.length : ℚ) * c := by
  induction l with
  | nil => simp
  | cons a t ih =>
    have ha : a = c := h a (by simp)
    have ht := ih (fun x hx => h x (by simp [hx]))
    simp only [List.sum_cons, List.length_cons, ha, ht]
    push_cast
    ring

/-- The mean of a nonempty constant list is that constant. -/
theorem mean_of_all_eq (data : List ℚ) (c : ℚ) (hne : data ≠ [])
    (h : ∀ x ∈ data, x = c) : data.sum / (data.length : ℚ) = c := by
  have hlen : (data.length : ℚ) ≠ 0 := by
    have : data.length ≠ 0 := by
      intro h0
      exact hne (List.length_eq_zero.mp h0)
    exact_mod_cast this
  rw [sum_const_list data c h, mul_comm, mul_div_assoc, div_self hlen, mul_one]

/-- The sample variance of a list of at least two points is nonnegative. -/
theorem varianceVal_nonneg (data : List ℚ) (h : 2 ≤ data.length) :
    0 ≤ varianceVal data := by
  have hn : (0 : ℚ) ≤ (data.length : ℚ) - 1 := by
    have : (2 : ℚ) ≤ (data.length : ℚ) := by exact_mod_cast h
    linarith
  apply div_nonneg _ hn
  apply sum_nonneg_of
  intro z hz
  obtain ⟨x, _, rfl⟩ := List.mem_map.mp hz
  positivity

/-- The sample variance of a list of at least two points vanishes iff all
its entries are equal. -/
theorem varianceVal_eq_zero_iff (data : List ℚ) (h : 2 ≤ data.length) :
    varianceVal data = 0 ↔ ∀ x ∈ data, ∀ y ∈ data, x = y := by
  have hn : (0 : ℚ) < (data.length : ℚ) - 1 := by
    have : (2 : ℚ) ≤ (data.length : ℚ) := by exact_mod_cast h
    linarith
  have hterms : ∀ z ∈ data.map
      (fun x => (x - data.sum / (data.length : ℚ)) ^ 2), 0 ≤ z := by
    intro z hz
    obtain ⟨x, _, rfl⟩ := List.mem_map.mp hz
    positivity
  constructor
  · intro h0 x hx y hy
    rw [varianceVal, div_eq_zero_iff] at h0
    rcases h0 with h0 | h0
    · have hall := (sum_eq_zero_iff_of_nonneg _ hterms).mp h0
      have hx' := sub_eq_zero.mp (sq_eq_zero_iff.mp
        (hall _ (List.mem_map.mpr ⟨x, hx, rfl⟩)))
      have hy' := sub_eq_zero.mp (sq_eq_zero_iff.mp
        (hall _ (List.mem_map.mpr ⟨y, hy, rfl⟩)))
      rw [hx', hy']
    · exact absurd h0 (ne_of_gt hn)
  · intro hall
    have hne : data ≠ [] := by
      intro h'
      rw [h'] at h
      simp at h
    obtain ⟨c, hc⟩ : ∃ c, ∀ x ∈ data, x = c := by
      cases data with
      | nil => simp at h
      | cons a t => exact ⟨a, fun x hx => hall x hx a (by simp)⟩
    have hmean := mean_of_all_eq data c hne hc
    rw [varianceVal]
    have hmap : data.map (fun x => (x - data.sum / (data.length : ℚ)) ^ 2)
        = data.map (fun _ => 0) :=
      List.map_congr_left (fun a ha => by rw [hmean, hc a ha]; ring)
    rw [hmap]
    simp

/-- On two distinct members, `std` is defined and positive. -/
theorem std_pos_of_ne (data : List ℚ) (x y : ℚ) (h2 : 2 ≤ data.length)
    (hx : x ∈ data) (hy : y ∈ data) (hne : x ≠ y) :
    std data = some (varianceVal data) ∧ 0 < varianceVal data := by
  refine ⟨by rw [std, if_pos h2], ?_⟩
  rcases lt_or_eq_of_le (varianceVal_nonneg data h2) with h | h
  · exact h
  · exact absurd ((varianceVal_eq_zero_iff data h2).mp h.symm x hx y hy) hne

/-- On a constant list of at least two points, `std` is defined and zero. -/
theorem std_eq_zero_of_all_eq (data : List ℚ) (h2 : 2 ≤ data.length)
    (h : ∀ x ∈ data, ∀ y ∈ data, x = y) :
    std data = some (varianceVal data) ∧ varianceVal data = 0 :=
  ⟨by rw [std, if_pos h2], (varianceVal_eq_zero_iff data h2).mpr h⟩

/-- With fewer than two data points, `std` raises (`statistics.stdev`
requires at least two points). -/
theorem std_eq_none (data : List ℚ) (h : data.length < 2) :
    std data = none := by
  rw [std, if_neg (by omega)]

end DeBruijn

namespace DeBruijn

variable {α : Type} [DecidableEq α]

/-- The seed of a max-fold bounds itself. -/
theorem le_foldl_max_self {β : Type} [LinearOrder β] :
    ∀ (l : List β) (b : β), b ≤ l.foldl max b := by
  intro l
  induction l with
  | nil => intro b; exact le_refl b
  | cons c t ih =>
    intro b
    exact le_trans (le_max_left b c) (ih (max b c))

/-- Every member of the list bounds itself by the max-fold. -/
theorem le_foldl_max_of_mem {β : Type} [LinearOrder β] :
    ∀ (l : List β) (b x : β), x ∈ l → x ≤ l.foldl max b := by
  intro l
  induction l with
  | nil => intro b x hx; simp at hx
  | cons c t ih =>
    intro b x hx
    rcases List.mem_cons.mp hx with rfl | hx
    · exact le_trans (le_max_right b x) (le_foldl_max_self t (max b x))
    · exact ih (max b c) x hx

/-- The max-fold returns its seed or a member of the list. -/
theorem foldl_max_mem {β : Type} [LinearOrder β] :
    ∀ (l : List β) (b : β), l.foldl max b = b ∨ l.foldl max b ∈ l := by
  intro l
  induction l with
  | nil => intro b; exact Or.inl rfl
  | cons c t ih =>
    intro b
    rcases ih (max b c) with h | h
    · rcases max_choice b c with hm | hm
      · exact Or.inl (by rw [List.foldl_cons, h, hm])
      · exact Or.inr (by rw [List.foldl_cons, h, hm]; simp)
    · exact Or.inr (List.mem_cons.mpr (Or.inr h))

/-- Python `max` on a nonempty list returns a member bounding the list. -/
theorem pyMax_spec {β : Type} [LinearOrder β] (l : List β) (hne : l ≠ []) :
    ∃ m, pyMax l = some m ∧ m ∈ l ∧ ∀ x ∈ l, x ≤ m := by
  cases l with
  | nil => exact absurd rfl hne
  | cons b t =>
    refine ⟨t.foldl max b, rfl, ?_, ?_⟩
    · rcases foldl_max_mem t b with h | h
      · rw [h]; simp
      · exact List.mem_cons.mpr (Or.inr h)
    · intro x hx
      rcases List.mem_cons.mp hx with rfl | hx
      · exact le_foldl_max_self t x
      · exact le_foldl_max_of_mem t b x hx

/-- `list.index` of a member is a valid position. -/
theorem pyIndexOf_lt_length {β : Type} [DecidableEq β] :
    ∀ (l : List β) (x : β), x ∈ l → pyIndexOf l x < l.length := by
  intro l
  induction l with
  | nil => intro x hx; simp at hx
  | cons b t ih =>
    intro x hx
    by_cases hbx : b = x
    · simp [pyIndexOf, hbx]
    · rcases List.mem_cons.mp hx with rfl | hx
      · exact absurd rfl hbx
      · simpa [pyIndexOf, hbx] using ih x hx

/-- `list.index(x)` returns `j` when `x` sits at `j` and nowhere earlier. -/
theorem pyIndexOf_eq_of_first {β : Type} [DecidableEq β] :
    ∀ (l : List β) (j : Nat) (x : β), l[j]? = some x →
      (∀ i, i < j → ∀ y, l[i]? = some y → y ≠ x) → pyIndexOf l x = j := by
  intro l
  induction l with
  | nil => intro j x hj _; simp at hj
  | cons b t ih =>
    intro j x hj hfirst
    cases j with
    | zero =>
      simp only [List.getElem?_cons_zero, Option.some_inj] at hj
      simp [pyIndexOf, hj]
    | succ j' =>
      have hb : b ≠ x :=
        hfirst 0 (Nat.succ_pos j') b (by simp)
      rw [List.getElem?_cons_succ] at hj
      have ht := ih j' x hj (fun i hi y hy =>
        hfirst (i + 1) (by omega) y (by simpa using hy))
      simp [pyIndexOf, hb, ht]

/-- Node membership after `remove_nodes_from`. -/
theorem mem_removeNodesFrom_nodes (g : Graph α) (l : List α) (n : α) :
    n ∈ (removeNodesFrom g l).nodes ↔ n ∈ g.nodes ∧ n ∉ l := by
  simp [removeNodesFrom, List.mem_filter]

/-- Edge membership after `remove_nodes_from`. -/
theorem mem_removeNodesFrom_edges (g : Graph α) (l : List α)
    (e : α × α × Nat) :
    e ∈ (removeNodesFrom g l).edges ↔ e ∈ g.edges ∧ e.1 ∉ l ∧ e.2.1 ∉ l := by
  simp [removeNodesFrom, List.mem_filter]

/-- Node membership after `remove_paths`: a node survives iff it was there
and lies on no trimmed listed path. -/
theorem mem_remove_paths_nodes (de ds : Bool) :
    ∀ (ps : List (List α)) (g : Graph α) (n : α),
      n ∈ (remove_paths g ps de ds).nodes ↔
        n ∈ g.nodes ∧ ∀ p ∈ ps, n ∉ trimPath de ds p := by
  intro ps
  induction ps with
  | nil => intro g n; simp [remove_paths]
  | cons p t ih =>
    intro g n
    have : remove_paths g (p :: t) de ds
        = remove_paths (removeNodesFrom g (trimPath de ds p)) t de ds := rfl
    rw [this, ih, mem_removeNodesFrom_nodes]
    constructor
    · rintro ⟨⟨hg, hp⟩, ht⟩
      exact ⟨hg, fun q hq => by
        rcases List.mem_cons.mp hq with rfl | hq
        · exact hp
        · exact ht q hq⟩
    · rintro ⟨hg, hall⟩
      exact ⟨⟨hg, hall p (by simp)⟩, fun q hq => hall q (by simp [hq])⟩

/-- Edge membership after `remove_paths`: an edge survives iff it was there
and neither endpoint lies on a trimmed listed path. -/
theorem mem_remove_paths_edges (de ds : Bool) :
    ∀ (ps : List (List α)) (g : Graph α) (e : α × α × Nat),
      e ∈ (remove_paths g ps de ds).edges ↔
        e ∈ g.edges ∧ ∀ p ∈ ps,
          e.1 ∉ trimPath de ds p ∧ e.2.1 ∉ trimPath de ds p := by
  intro ps
  induction ps with
  | nil => intro g e; simp [remove_paths]
  | cons p t ih =>
    intro g e
    have : remove_paths g (p :: t) de ds
        = remove_paths (removeNodesFrom g (trimPath de ds p)) t de ds := rfl
    rw [this, ih, mem_removeNodesFrom_edges]
    constructor
    · rintro ⟨⟨hg, h1, h2⟩, ht⟩
      exact ⟨hg, fun q hq => by
        rcases List.mem_cons.mp hq with rfl | hq
        · exact ⟨h1, h2⟩
        · exact ht q hq⟩
    · rintro ⟨hg, hall⟩
      exact ⟨⟨hg, (hall p (by simp)).1, (hall p (by simp)).2⟩,
        fun q hq => hall q (by simp [hq])⟩

/-- `mapOpt` preserves the length when it succeeds. -/
theorem mapOpt_length {β γ : Type} (f : β → Option γ) :
    ∀ (l : List β) (cs : List γ), mapOpt f l = some cs →
      cs.length = l.length := by
  intro l
  induction l with
  | nil =>
    intro cs h
    simp only [mapOpt, Option.some_inj] at h
    rw [← h]
    rfl
  | cons b t ih =>
    intro cs h
    simp only [mapOpt] at h
    cases hf : f b with
    | none => rw [hf] at h; simp at h
    | some c =>
      rw [hf] at h
      cases ht : mapOpt f t with
      | none => rw [ht] at h; simp at h
      | some cs' =>
        rw [ht] at h
        simp only [Option.some_inj] at h
        rw [← h]
        simpa using ih cs' ht

/-- Every enumerated simple path starts at the node it was launched from. -/
theorem simplePathsFrom_head (g : Graph α) (t : α) :
    ∀ (fuel : Nat) (u : α) (visited : List α) (p : List α),
      p ∈ simplePathsFrom g t fuel u visited → ∃ q, p = u :: q := by
  intro fuel
  cases fuel with
  | zero => intro u visited p hp; simp [simplePathsFrom] at hp
  | succ f =>
    intro u visited p hp
    rw [simplePathsFrom.eq_def] at hp
    simp only [] at hp
    by_cases hu : u = t
    · rw [if_pos hu] at hp
      simp only [List.mem_singleton] at hp
      exact ⟨[], hp⟩
    · rw [if_neg hu] at hp
      obtain ⟨v, _, hp⟩ := List.mem_flatMap.mp hp
      obtain ⟨q, _, rfl⟩ := List.mem_map.mp hp
      exact ⟨q, rfl⟩

/-- A fold that appends pieces equals the seed followed by the flattened
pieces. -/
theorem foldl_append_flatten (f : DNA → DNA) :
    ∀ (t : List DNA) (h : DNA),
      t.foldl (fun acc node => acc ++ f node) h = h ++ (t.map f).flatten := by
  intro t
  induction t with
  | nil => intro h; simp
  | cons a t ih =>
    intro h
    rw [List.foldl_cons, ih, List.map_cons, List.flatten_cons,
      List.append_assoc]

/-- The contig of a nonempty path: first node in full, then the last
character of every subsequent node. -/
theorem contigOf_cons (h : DNA) (t : List DNA) :
    contigOf (h :: t) = h ++ (t.map lastStr).flatten :=
  foldl_append_flatten lastStr t h

end DeBruijn

namespace DeBruijn

variable {α : Type} [DecidableEq α]

/-- Counting the window starts whose window fits: `min n (L + 1 - k)`. -/
theorem range_filter_window_length (L k : Nat) :
    ∀ n, (((List.range n).filter (fun i => decide (i + k ≤ L))).length)
      = min n (L + 1 - k) := by
  intro n
  induction n with
  | zero => simp
  | succ n ih =>
    rw [List.range_succ, List.filter_append, List.length_append, ih]
    by_cases h : n + k ≤ L
    · have hl : (List.filter (fun i => decide (i + k ≤ L)) [n]).length = 1 := by
        simp [h]
      rw [hl]
      omega
    · have hl : (List.filter (fun i => decide (i + k ≤ L)) [n]).length = 0 := by
        simp [h]
      rw [hl]
      omega

/-- The number of k-mers cut from a read. -/
theorem cut_kmer_length (read : DNA) (k : Nat) :
    (cut_kmer read k).length = min read.length (read.length + 1 - k) := by
  rw [cut_kmer, List.length_map, range_filter_window_length]

/-- Bumping a key that is absent leaves the table unchanged. -/
theorem map_bump_of_not_mem (kmer : DNA) :
    ∀ (d : List (DNA × Nat)), kmer ∉ d.map Prod.fst →
      d.map (fun kv => if kv.1 = kmer then (kv.1, kv.2 + 1) else kv) = d := by
  intro d
  induction d with
  | nil => intro _; rfl
  | cons kv t ih =>
    intro h
    simp only [List.map_cons, List.mem_cons, not_or] at h
    have hk : kv.1 ≠ kmer := fun he => h.1 he.symm
    simp only [List.map_cons, if_neg hk]
    rw [ih h.2]

/-- Bumping a present key adds exactly one to the total, provided the table
keys are distinct (the Python dict invariant). -/
theorem bump_total (kmer : DNA) :
    ∀ (d : List (DNA × Nat)), (d.map Prod.fst).Nodup →
      kmer ∈ d.map Prod.fst →
      tableTotal (d.map (fun kv => if kv.1 = kmer then (kv.1, kv.2 + 1) else kv))
        = tableTotal d + 1 := by
  intro d
  induction d with
  | nil => intro _ h; simp at h
  | cons kv t ih =>
    intro hnd hmem
    simp only [List.map_cons, List.nodup_cons] at hnd
    simp only [List.map_cons, List.mem_cons] at hmem
    by_cases hk : kv.1 = kmer
    · have htabs : kmer ∉ t.map Prod.fst := hk ▸ hnd.1
      simp only [List.map_cons, if_pos hk, tableTotal, List.map_cons,
        List.sum_cons]
      rw [map_bump_of_not_mem kmer t htabs]
      omega
    · have hmem' : kmer ∈ t.map Prod.fst := by
        rcases hmem with h | h
        · exact absurd h.symm hk
        · exact h
      have := ih hnd.2 hmem'
      simp only [List.map_cons, if_neg hk, tableTotal, List.map_cons,
        List.sum_cons] at this ⊢
      omega

/-- The membership test in `dictIncr` matches key membership. -/
theorem dictIncr_any_iff (d : List (DNA × Nat)) (kmer : DNA) :
    (d.any (fun kv => decide (kv.1 = kmer)) = true) ↔ kmer ∈ d.map Prod.fst := by
  rw [List.any_eq_true]
  constructor
  · rintro ⟨kv, hkv, h⟩
    rw [decide_eq_true_eq] at h
    exact List.mem_map.mpr ⟨kv, hkv, h⟩
  · intro h
    obtain ⟨kv, hkv, h⟩ := List.mem_map.mp h
    exact ⟨kv, hkv, by rw [decide_eq_true_eq]; exact h⟩

/-- One `dictIncr` step adds exactly one to the total. -/
theorem dictIncr_total (d : List (DNA × Nat)) (kmer : DNA)
    (h : (d.map Prod.fst).Nodup) :
    tableTotal (dictIncr d kmer) = tableTotal d + 1 := by
  rw [dictIncr]
  by_cases hmem : kmer ∈ d.map Prod.fst
  · rw [if_pos ((dictIncr_any_iff d kmer).mpr hmem)]
    exact bump_total kmer d h hmem
  · rw [if_neg (by rw [dictIncr_any_iff]; exact hmem)]
    simp [tableTotal]

/-- One `dictIncr` step preserves distinctness of the keys. -/
theorem dictIncr_nodup (d : List (DNA × Nat)) (kmer : DNA)
    (h : (d.map Prod.fst).Nodup) :
    ((dictIncr d kmer).map Prod.fst).Nodup := by
  rw [dictIncr]
  by_cases hmem : kmer ∈ d.map Prod.fst
  · rw [if_pos ((dictIncr_any_iff d kmer).mpr hmem)]
    have hkeys : (d.map (fun kv =>
        if kv.1 = kmer then (kv.1, kv.2 + 1) else kv)).map Prod.fst
        = d.map Prod.fst := by
      rw [List.map_map]
      exact List.map_congr_left (fun kv _ => by
        by_cases hk : kv.1 = kmer <;> simp [hk])
    rw [hkeys]
    exact h
  · rw [if_neg (by rw [dictIncr_any_iff]; exact hmem)]
    rw [List.map_append]
    rw [List.nodup_append]
    exact ⟨h, by simp, by
      intro x hx hx'
      simp only [List.map_cons, List.map_nil, List.mem_singleton] at hx'
      exact hmem (hx' ▸ hx)⟩

/-- Folding a block of k-mers into a table adds their number to the total
and keeps the keys distinct. -/
theorem foldl_dictIncr_total :
    ∀ (kmers : List DNA) (d : List (DNA × Nat)), (d.map Prod.fst).Nodup →
      tableTotal (kmers.foldl dictIncr d) = tableTotal d + kmers.length ∧
        ((kmers.foldl dictIncr d).map Prod.fst).Nodup := by
  intro kmers
  induction kmers with
  | nil => intro d hd; exact ⟨by simp, hd⟩
  | cons kmer t ih =>
    intro d hd
    have h1 := dictIncr_total d kmer hd
    have h2 := dictIncr_nodup d kmer hd
    have := ih (dictIncr d kmer) h2
    exact ⟨by rw [List.foldl_cons, this.1, h1, List.length_cons]; omega,
      by rw [List.foldl_cons]; exact this.2⟩

/-- The grand total of `build_kmer_dict` is the sum of the per-read k-mer
counts. -/
theorem build_kmer_dict_total (reads : List DNA) (k : Nat) :
    tableTotal (build_kmer_dict reads k)
      = (reads.map (fun r => (cut_kmer r k).length)).sum := by
  suffices h : ∀ (rs : List DNA) (d : List (DNA × Nat)),
      (d.map Prod.fst).Nodup →
      tableTotal (rs.foldl (fun d r => (cut_kmer r k).foldl dictIncr d) d)
        = tableTotal d + (rs.map (fun r => (cut_kmer r k).length)).sum ∧
      ((rs.foldl (fun d r => (cut_kmer r k).foldl dictIncr d) d).map
        Prod.fst).Nodup by
    have := (h reads [] (by simp)).1
    rw [build_kmer_dict, this]
    simp [tableTotal]
  intro rs
  induction rs with
  | nil => intro d hd; exact ⟨by simp, hd⟩
  | cons r t ih =>
    intro d hd
    have h1 := foldl_dictIncr_total (cut_kmer r k) d hd
    have := ih ((cut_kmer r k).foldl dictIncr d) h1.2
    refine ⟨?_, by rw [List.foldl_cons]; exact this.2⟩
    rw [List.foldl_cons, this.1, h1.1, List.map_cons, List.sum_cons]
    omega

end DeBruijn

namespace DeBruijn

variable {α : Type} [DecidableEq α]

/-- `add_edge` on a fresh endpoint pair appends the edge. -/
theorem addEdge_edges_fresh (g : Graph α) (u v : α) (w : Nat)
    (h : ∀ e ∈ g.edges, ¬(e.1 = u ∧ e.2.1 = v)) :
    (addEdge g u v w).edges = g.edges ++ [(u, v, w)] := by
  simp only [addEdge]
  rw [if_neg]
  intro hany
  rw [List.any_eq_true] at hany
  obtain ⟨e, he, hd⟩ := hany
  rw [Bool.and_eq_true, decide_eq_true_eq, decide_eq_true_eq] at hd
  exact h e he hd

/-- `lastStr` ignores every character before the last. -/
theorem lastStr_cons_cons (a b : Char) (t : List Char) :
    lastStr (a :: b :: t) = lastStr (b :: t) := rfl

/-- A nonempty string is its body followed by its last character. -/
theorem dropLast_append_lastStr :
    ∀ (l : DNA), l ≠ [] → l.dropLast ++ lastStr l = l := by
  intro l
  induction l with
  | nil => intro h; exact absurd rfl h
  | cons a t ih =>
    intro _
    cases t with
    | nil => rfl
    | cons b t' =>
      rw [lastStr_cons_cons, List.dropLast_cons₂, List.cons_append,
        ih (by simp)]

/-- A k-mer of length at least two is recovered from its prefix node and
the last character of its suffix node. -/
theorem kmer_reconstruct (kmer : DNA) (h : 2 ≤ kmer.length) :
    kmer.dropLast ++ lastStr (kmer.drop 1) = kmer := by
  cases kmer with
  | nil => simp at h
  | cons a t =>
    cases t with
    | nil => simp at h
    | cons b t' =>
      have hd : (a :: b :: t').drop 1 = b :: t' := rfl
      rw [hd, ← lastStr_cons_cons a b t']
      exact dropLast_append_lastStr (a :: b :: t') (by simp)

/-- Two k-mers of length at least two with the same prefix node and the
same suffix node are equal. -/
theorem dropLast_drop_inj (k1 k2 : DNA) (h1 : 2 ≤ k1.length)
    (h2 : 2 ≤ k2.length) (hdl : k1.dropLast = k2.dropLast)
    (hd : k1.drop 1 = k2.drop 1) : k1 = k2 := by
  cases k1 with
  | nil => simp at h1
  | cons a t =>
    cases t with
    | nil => simp at h1
    | cons b t1 =>
      cases k2 with
      | nil => simp at h2
      | cons c s =>
        cases s with
        | nil => simp at h2
        | cons d2 s2 =>
          have htail : b :: t1 = d2 :: s2 := hd
          rw [List.dropLast_cons₂, List.dropLast_cons₂] at hdl
          have hhead : a = c := (List.cons.injEq _ _ _ _ ▸ hdl).1
          rw [hhead, htail]

/-- Folding a table whose edge keys are pairwise distinct and fresh for the
accumulated graph appends exactly one edge per entry, in table order. -/
theorem build_graph_fold_edges :
    ∀ (d : List (DNA × Nat)) (g : Graph DNA),
      List.Pairwise (fun a b : DNA × Nat =>
        ¬(a.1.dropLast = b.1.dropLast ∧ a.1.drop 1 = b.1.drop 1)) d →
      (∀ kv ∈ d, ∀ e ∈ g.edges,
        ¬(e.1 = kv.1.dropLast ∧ e.2.1 = kv.1.drop 1)) →
      (d.foldl (fun g kv => addEdge g kv.1.dropLast (kv.1.drop 1) kv.2)
          g).edges
        = g.edges ++ d.map (fun kv => (kv.1.dropLast, kv.1.drop 1, kv.2)) := by
  intro d
  induction d with
  | nil => intro g _ _; simp
  | cons kv t ih =>
    intro g hpw hfresh
    rw [List.foldl_cons]
    have hfre : (addEdge g kv.1.dropLast (kv.1.drop 1) kv.2).edges
        = g.edges ++ [(kv.1.dropLast, kv.1.drop 1, kv.2)] :=
      addEdge_edges_fresh g _ _ _
        (fun e he hd => hfresh kv (by simp) e he hd)
    rw [List.pairwise_cons] at hpw
    have ht := ih (addEdge g kv.1.dropLast (kv.1.drop 1) kv.2) hpw.2
      (by
        intro kv' hkv' e he hd
        rw [hfre] at he
        rcases List.mem_append.mp he with he | he
        · exact hfresh kv' (by simp [hkv']) e he hd
        · rw [List.mem_singleton] at he
          subst he
          exact hpw.1 kv' hkv' ⟨hd.1, hd.2⟩)
    rw [ht, hfre, List.map_cons, List.append_assoc, List.singleton_append]

end DeBruijn

namespace DeBruijn

variable {α : Type} [DecidableEq α]

/-- The default trimming of `remove_paths` spares both endpoints: only the
interior of each listed path is removed. -/
theorem trimPath_false_false {γ : Type} (p : List γ) :
    trimPath false false p = (p.drop 1).dropLast := rfl

/-- C1, counterexample. On a bubble with two arms of equal average weight
and lengths 3 and 5, `select_best_path` keeps the length-5 arm intact and
deletes the interior of the length-3 arm — the opposite of the claim, which
says the length-5 arm is the one removed: `del
path_list[path_length.index(max(path_length))]` spares the longest path
from the deletion list. -/
theorem c1_counterexample :
    select_best_path
      ({ nodes := ['a', 'x', 'b', 'p', 'q', 'r'],
         edges := [('a', 'x', 1), ('x', 'b', 1), ('a', 'p', 1), ('p', 'q', 1),
           ('q', 'r', 1), ('r', 'b', 1)] } : Graph Char)
      [['a', 'x', 'b'], ['a', 'p', 'q', 'r', 'b']] [3, 5] [1, 1] false false 0
    = some { nodes := ['a', 'b', 'p', 'q', 'r'],
             edges := [('a', 'p', 1), ('p', 'q', 1), ('q', 'r', 1),
               ('r', 'b', 1)] } := by
  have hw : std ([1, 1] : List ℚ) = some 0 := by
    norm_num [std, varianceVal]
  have hl : std (([3, 5] : List Nat).map (fun (n : Nat) => (n : ℚ)))
      = some 2 := by
    norm_num [std, varianceVal]
  simp only [select_best_path, hw, hl]
  rw [if_neg (lt_irrefl (0 : ℚ)), if_pos (by norm_num : (0 : ℚ) < 2)]
  decide

/-- C1, amended: when the candidate average weights are all equal (variance
zero) and the lengths are not all equal, `select_best_path` spares the path
at the first index of the maximal length — the longest path is kept — and
removes the remaining listed paths. -/
theorem c1_length_tiebreak_keeps_longest (g : Graph α)
    (paths : List (List α)) (lengths : List Nat) (weights : List ℚ)
    (de ds : Bool) (r : Nat)
    (hlw : lengths.length = weights.length)
    (hpw : paths.length = weights.length)
    (h2 : 2 ≤ weights.length)
    (hweq : ∀ x ∈ weights, ∀ y ∈ weights, x = y)
    (hld : ∃ x ∈ lengths, ∃ y ∈ lengths, x ≠ y) :
    ∃ m, pyMax lengths = some m ∧ m ∈ lengths ∧ (∀ x ∈ lengths, x ≤ m) ∧
      select_best_path g paths lengths weights de ds r
        = some (remove_paths g (paths.eraseIdx (pyIndexOf lengths m)) de ds) := by
  obtain ⟨x, hx, y, hy, hxy⟩ := hld
  have hstd0 := std_eq_zero_of_all_eq weights h2 hweq
  have hlq2 : 2 ≤ (lengths.map (fun (n : Nat) => (n : ℚ))).length := by
    rw [List.length_map]
    omega
  have hstdl := std_pos_of_ne (lengths.map (fun (n : Nat) => (n : ℚ)))
    (x : ℚ) (y : ℚ) hlq2
    (List.mem_map.mpr ⟨x, hx, rfl⟩) (List.mem_map.mpr ⟨y, hy, rfl⟩)
    (by exact_mod_cast hxy)
  have hne : lengths ≠ [] := by
    intro h
    rw [h] at hlw
    simp at hlw
    omega
  obtain ⟨m, hm, hmmem, hle⟩ := pyMax_spec lengths hne
  have hidxlt : pyIndexOf lengths m < paths.length := by
    have := pyIndexOf_lt_length lengths m hmmem
    omega
  refine ⟨m, hm, hmmem, hle, ?_⟩
  simp only [select_best_path, hstd0.1]
  rw [hstd0.2, if_neg (lt_irrefl (0 : ℚ))]
  simp only [hstdl.1]
  rw [if_pos hstdl.2]
  simp only [delBestThenRemove, hm]
  rw [if_pos hidxlt]

/-- C1, witness: the amended theorem applied to the concrete two-arm bubble
with equal weights and lengths 3 and 5. -/
theorem c1_length_tiebreak_keeps_longest_witness :
    ∃ m, pyMax [3, 5] = some m ∧ m ∈ [3, 5] ∧ (∀ x ∈ [3, 5], x ≤ m) ∧
      select_best_path
        ({ nodes := ['a', 'x', 'b', 'p', 'q', 'r'],
           edges := [('a', 'x', 1), ('x', 'b', 1), ('a', 'p', 1),
             ('p', 'q', 1), ('q', 'r', 1), ('r', 'b', 1)] } : Graph Char)
        [['a', 'x', 'b'], ['a', 'p', 'q', 'r', 'b']] [3, 5] [1, 1]
        false false 0
        = some (remove_paths
            { nodes := ['a', 'x', 'b', 'p', 'q', 'r'],
              edges := [('a', 'x', 1), ('x', 'b', 1), ('a', 'p', 1),
                ('p', 'q', 1), ('q', 'r', 1), ('r', 'b', 1)] }
            ([['a', 'x', 'b'], ['a', 'p', 'q', 'r', 'b']].eraseIdx
              (pyIndexOf [3, 5] m))
            false false) :=
  c1_length_tiebreak_keeps_longest _ _ _ _ false false 0 (by decide)
    (by decide) (by decide) (by decide) ⟨3, by decide, 5, by decide, by decide⟩

/-- C2, counterexample. On the path `a → b → c` in a graph that also has
the chord edge `a → c` of weight 10, `path_average_weight` returns 4 (the
mean over the induced subgraph, chord included), while the mean over the
path's constituent edges is 1. -/
theorem c2_counterexample :
    path_average_weight
        ({ nodes := ['a', 'b', 'c'],
           edges := [('a', 'b', 1), ('b', 'c', 1), ('a', 'c', 10)] } :
          Graph Char)
        ['a', 'b', 'c'] = some 4 ∧
      path_average_weight_spec
        ({ nodes := ['a', 'b', 'c'],
           edges := [('a', 'b', 1), ('b', 'c', 1), ('a', 'c', 10)] } :
          Graph Char)
        ['a', 'b', 'c'] = some 1 := by
  constructor
  · have h1 : subgraphEdges
        ({ nodes := ['a', 'b', 'c'],
           edges := [('a', 'b', 1), ('b', 'c', 1), ('a', 'c', 10)] } :
          Graph Char)
        ['a', 'b', 'c'] = [('a', 'b', 1), ('b', 'c', 1), ('a', 'c', 10)] := by
      decide
    rw [path_average_weight, h1]
    norm_num [pyMean]
    decide
  · have h2 : mapOpt
        (fun uv => findEdge
          ({ nodes := ['a', 'b', 'c'],
             edges := [('a', 'b', 1), ('b', 'c', 1), ('a', 'c', 10)] } :
            Graph Char)
          uv.1 uv.2)
        (consecutivePairs ['a', 'b', 'c'])
        = some [('a', 'b', 1), ('b', 'c', 1)] := by
      decide
    rw [path_average_weight_spec]
    simp only [h2]
    norm_num [pyMean]
    decide

/-- C2, amended: `path_average_weight` averages over all edges of the
subgraph induced by the path's node set; whenever those induced edges are
exactly the path's consecutive edges (no chords), it agrees with the mean
over the path's constituent edges. -/
theorem c2_mean_over_induced_subgraph (g : Graph α) (path : List α)
    (ces : List (α × α × Nat))
    (h1 : mapOpt (fun uv => findEdge g uv.1 uv.2) (consecutivePairs path)
      = some ces)
    (h2 : (subgraphEdges g path).Perm ces) :
    path_average_weight g path = path_average_weight_spec g path := by
  rw [path_average_weight_spec]
  simp only [h1]
  rw [path_average_weight]
  have hperm := h2.map (fun e => (e.2.2 : ℚ))
  rw [pyMean, pyMean]
  by_cases hnil : (subgraphEdges g path).map (fun e => (e.2.2 : ℚ)) = []
  · rw [if_pos hnil]
    rw [if_pos (by rw [hnil] at hperm; exact hperm.symm.eq_nil)]
  · rw [if_neg hnil,
      if_neg (fun hB => hnil (by rw [hB] at hperm; exact hperm.eq_nil))]
    rw [hperm.sum_eq, hperm.length_eq]

/-- C2, witness: the amended theorem applied to the chord-free path
`a → b → c`. -/
theorem c2_mean_over_induced_subgraph_witness :
    path_average_weight
        ({ nodes := ['a', 'b', 'c'],
           edges := [('a', 'b', 1), ('b', 'c', 1)] } : Graph Char)
        ['a', 'b', 'c']
      = path_average_weight_spec
        ({ nodes := ['a', 'b', 'c'],
           edges := [('a', 'b', 1), ('b', 'c', 1)] } : Graph Char)
        ['a', 'b', 'c'] :=
  c2_mean_over_induced_subgraph _ _ [('a', 'b', 1), ('b', 'c', 1)]
    (by decide) (by decide)

end DeBruijn

namespace DeBruijn

variable {α : Type} [DecidableEq α]

/-- C3: when the candidate average weights have positive variance and the
path at index `j` has the strictly highest average weight, that path is
spared, the interior nodes of every other candidate path are removed, and
— with the default flags and winner nodes disjoint from the losing
interiors — the winning arm's nodes and edges (in particular the shared
endpoints) survive intact. -/
theorem c3_highest_weight_survives (g : Graph α) (paths : List (List α))
    (lengths : List Nat) (weights : List ℚ) (r : Nat) (j : Nat)
    (winner : List α) (wj : ℚ)
    (hpw : paths.length = weights.length)
    (h2 : 2 ≤ weights.length)
    (hwin : paths[j]? = some winner)
    (hwj : weights[j]? = some wj)
    (hstrict : ∀ i y, weights[i]? = some y → i ≠ j → y < wj)
    (hdisj : ∀ q ∈ paths.eraseIdx j, ∀ n ∈ winner, n ∉ (q.drop 1).dropLast) :
    ∃ g', select_best_path g paths lengths weights false false r = some g' ∧
      (∀ q ∈ paths.eraseIdx j, ∀ n ∈ (q.drop 1).dropLast, n ∉ g'.nodes) ∧
      (∀ n ∈ winner, n ∈ g.nodes → n ∈ g'.nodes) ∧
      (∀ e ∈ g.edges, e.1 ∈ winner → e.2.1 ∈ winner → e ∈ g'.edges) := by
  obtain ⟨hjw, -⟩ := List.getElem?_eq_some.mp hwj
  have hwjmem : wj ∈ weights := List.mem_iff_getElem?.mpr ⟨j, hwj⟩
  have hi0lt : (if j = 0 then 1 else 0) < weights.length := by
    by_cases hj0 : j = 0 <;> simp [hj0] <;> omega
  have hi0ne : (if j = 0 then 1 else 0) ≠ j := by
    by_cases hj0 : j = 0 <;> simp [hj0]
    omega
  obtain ⟨y0, hy0⟩ : ∃ y0, weights[if j = 0 then 1 else 0]? = some y0 :=
    ⟨weights.get ⟨if j = 0 then 1 else 0, hi0lt⟩,
      by simp [List.getElem?_eq_getElem hi0lt]⟩
  have hylt := hstrict _ y0 hy0 hi0ne
  have hymem : y0 ∈ weights := List.mem_iff_getElem?.mpr ⟨_, hy0⟩
  have hstd := std_pos_of_ne weights y0 wj h2 hymem hwjmem (ne_of_lt hylt)
  have hne : weights ≠ [] := by
    intro h
    rw [h] at h2
    simp at h2
  obtain ⟨m, hm, hmmem, hle⟩ := pyMax_spec weights hne
  have hmwj : m = wj := by
    rcases List.mem_iff_getElem?.mp hmmem with ⟨i, hi⟩
    by_cases hij : i = j
    · subst hij
      rw [hwj] at hi
      exact (Option.some_inj.mp hi).symm
    · exact absurd (lt_of_lt_of_le (hstrict i m hi hij) (hle wj hwjmem))
        (lt_irrefl m)
  subst hmwj
  have hidx : pyIndexOf weights m = j :=
    pyIndexOf_eq_of_first weights j m hwj (fun i hij y hy =>
      ne_of_lt (hstrict i y hy (by omega)))
  have hjp : j < paths.length := by omega
  simp only [select_best_path, hstd.1]
  rw [if_pos hstd.2]
  simp only [delBestThenRemove, hm, hidx]
  rw [if_pos hjp]
  refine ⟨_, rfl, ?_, ?_, ?_⟩
  · intro q hq n hn hmem
    have h := (mem_remove_paths_nodes false false (paths.eraseIdx j) g n).mp
      hmem
    exact h.2 q hq (by rw [trimPath_false_false]; exact hn)
  · intro n hn hgn
    refine (mem_remove_paths_nodes false false _ g n).mpr ⟨hgn, ?_⟩
    intro q hq
    rw [trimPath_false_false]
    exact hdisj q hq n hn
  · intro e he he1 he2
    refine (mem_remove_paths_edges false false _ g e).mpr ⟨he, ?_⟩
    intro q hq
    rw [trimPath_false_false]
    exact ⟨hdisj q hq e.1 he1, hdisj q hq e.2.1 he2⟩

/-- C3, witness: a two-arm bubble with average weights 5 and 2 — the arm of
weight 2 loses its interior node, the arm of weight 5 survives intact. -/
theorem c3_highest_weight_survives_witness :
    ∃ g', select_best_path
        ({ nodes := ['a', 'x', 'y', 'b'],
           edges := [('a', 'x', 5), ('x', 'b', 5), ('a', 'y', 2),
             ('y', 'b', 2)] } : Graph Char)
        [['a', 'x', 'b'], ['a', 'y', 'b']] [3, 3] [5, 2] false false 0
        = some g' ∧
      (∀ q ∈ ([['a', 'x', 'b'], ['a', 'y', 'b']] :
          List (List Char)).eraseIdx 0,
        ∀ n ∈ (q.drop 1).dropLast, n ∉ g'.nodes) ∧
      (∀ n ∈ (['a', 'x', 'b'] : List Char),
        n ∈ ({ nodes := ['a', 'x', 'y', 'b'],
               edges := [('a', 'x', 5), ('x', 'b', 5), ('a', 'y', 2),
                 ('y', 'b', 2)] } : Graph Char).nodes → n ∈ g'.nodes) ∧
      (∀ e ∈ ({ nodes := ['a', 'x', 'y', 'b'],
                edges := [('a', 'x', 5), ('x', 'b', 5), ('a', 'y', 2),
                  ('y', 'b', 2)] } : Graph Char).edges,
        e.1 ∈ (['a', 'x', 'b'] : List Char) →
        e.2.1 ∈ (['a', 'x', 'b'] : List Char) → e ∈ g'.edges) :=
  c3_highest_weight_survives _ _ [3, 3] _ 0 0 (['a', 'x', 'b'] : List Char) 5
    (by decide) (by decide) (by decide) (by decide)
    (by
      intro i y hy hi
      rcases i with _ | _ | n
      · exact absurd rfl hi
      · have h21 : (([5, 2] : List ℚ)[1]?) = some 2 := rfl
        rw [h21, Option.some_inj] at hy
        rw [← hy]
        norm_num
      · have hn2 : (([5, 2] : List ℚ)[n + 2]?) = none := rfl
        rw [hn2] at hy
        exact absurd hy (by simp))
    (by decide)

/-- C4: for a table whose keys are distinct k-mers of length at least two,
every edge `(u, v, w)` of the built graph satisfies that `u` concatenated
with the last character of `v` is a key of the table with count `w`, and
conversely every table entry contributes the edge from its prefix to its
suffix with its count as weight. -/
theorem c4_build_graph_round_trip (d : List (DNA × Nat))
    (hkeys : (d.map Prod.fst).Nodup)
    (hlen : ∀ kv ∈ d, 2 ≤ kv.1.length) :
    (∀ u v w, (u, v, w) ∈ (build_graph d).edges → (u ++ lastStr v, w) ∈ d) ∧
      (∀ kv ∈ d, (kv.1.dropLast, kv.1.drop 1, kv.2)
        ∈ (build_graph d).edges) := by
  have h1 : List.Pairwise (fun a b : DNA × Nat => a.1 ≠ b.1) d :=
    List.pairwise_map.mp hkeys
  have hpw : List.Pairwise (fun a b : DNA × Nat =>
      ¬(a.1.dropLast = b.1.dropLast ∧ a.1.drop 1 = b.1.drop 1)) d := by
    refine List.Pairwise.imp_of_mem ?_ h1
    intro a b ha hb hab hc
    exact hab (dropLast_drop_inj a.1 b.1 (hlen a ha) (hlen b hb) hc.1 hc.2)
  have hedges : (build_graph d).edges
      = d.map (fun kv => (kv.1.dropLast, kv.1.drop 1, kv.2)) := by
    have h := build_graph_fold_edges d { nodes := [], edges := [] } hpw
      (by intro kv _ e he; simp at he)
    rw [build_graph, h]
    simp
  constructor
  · intro u v w hm
    rw [hedges] at hm
    obtain ⟨kv, hkv, heq⟩ := List.mem_map.mp hm
    rw [Prod.mk.injEq] at heq
    obtain ⟨h1', heq2⟩ := heq
    rw [Prod.mk.injEq] at heq2
    obtain ⟨h2', h3'⟩ := heq2
    have hu : u ++ lastStr v = kv.1 := by
      rw [← h1', ← h2']
      exact kmer_reconstruct kv.1 (hlen kv hkv)
    rw [hu, ← h3']
    exact hkv
  · intro kv hkv
    rw [hedges]
    exact List.mem_map.mpr ⟨kv, hkv, rfl⟩

/-- C4, witness: the round trip on the two-entry table
`{AAT ↦ 1, ATC ↦ 2}`. -/
theorem c4_build_graph_round_trip_witness :
    (∀ u v w, (u, v, w)
        ∈ (build_graph [(("AAT").toList, 1), (("ATC").toList, 2)]).edges →
        (u ++ lastStr v, w) ∈ [(("AAT").toList, 1), (("ATC").toList, 2)]) ∧
      (∀ kv ∈ [(("AAT").toList, 1), (("ATC").toList, 2)],
        (kv.1.dropLast, kv.1.drop 1, kv.2)
          ∈ (build_graph [(("AAT").toList, 1), (("ATC").toList, 2)]).edges) :=
  c4_build_graph_round_trip _ (by decide) (by decide)

/-- C5: for every k-mer size at least 1, the total count of the table built
by `build_kmer_dict` is the sum over the reads of `max 0 (len - k + 1)`,
and `cut_kmer` yields exactly `max 0 (len - k + 1)` windows per read. -/
theorem c5_kmer_count_total (reads : List DNA) (k : Nat) (hk : 1 ≤ k) :
    ((tableTotal (build_kmer_dict reads k) : ℤ)
        = (reads.map (fun r => max 0 ((r.length : ℤ) - (k : ℤ) + 1))).sum) ∧
      ∀ read : DNA, ((cut_kmer read k).length : ℤ)
        = max 0 ((read.length : ℤ) - (k : ℤ) + 1) := by
  have hper : ∀ read : DNA, ((cut_kmer read k).length : ℤ)
      = max 0 ((read.length : ℤ) - (k : ℤ) + 1) := by
    intro read
    have h := cut_kmer_length read k
    omega
  refine ⟨?_, hper⟩
  rw [build_kmer_dict_total, Nat.cast_list_sum, List.map_map]
  congr 1
  refine List.map_congr_left (fun r _ => ?_)
  simp only [Function.comp_apply]
  exact hper r

/-- C5, witness: the count law on the two example reads with k = 3. -/
theorem c5_kmer_count_total_witness :
    ((tableTotal (build_kmer_dict [("AATCGA").toList, ("ATCGAT").toList] 3)
          : ℤ)
        = (([("AATCGA").toList, ("ATCGAT").toList] : List DNA).map
            (fun r => max 0 ((r.length : ℤ) - (3 : ℤ) + 1))).sum) ∧
      ∀ read : DNA, ((cut_kmer read 3).length : ℤ)
        = max 0 ((read.length : ℤ) - (3 : ℤ) + 1) :=
  c5_kmer_count_total [("AATCGA").toList, ("ATCGAT").toList] 3 (by decide)

/-- C6: every pair emitted by `get_contigs` comes from a simple path
between a listed source and a listed sink, its string is the path's first
node followed by the last character of every subsequent node, and its
number is that string's length; on the linear graph
`AAT → ATC → TCG`, the output is exactly `[("AATCG", 5)]`. -/
theorem c6_contig_reconstruction (g : Graph DNA)
    (starting_nodes ending_nodes : List DNA) (pr : DNA × Nat)
    (hpr : pr ∈ get_contigs g starting_nodes ending_nodes) :
    (∃ s ∈ starting_nodes, ∃ e ∈ ending_nodes,
        ∃ p ∈ allSimplePaths g s e, ∃ t : List DNA, p = s :: t ∧
          pr.1 = s ++ (t.map lastStr).flatten ∧ pr.2 = pr.1.length) ∧
      get_contigs
        ({ nodes := [("AAT").toList, ("ATC").toList, ("TCG").toList],
           edges := [(("AAT").toList, ("ATC").toList, 1),
             (("ATC").toList, ("TCG").toList, 1)] } : Graph DNA)
        [("AAT").toList] [("TCG").toList] = [(("AATCG").toList, 5)] := by
  constructor
  · rw [get_contigs] at hpr
    obtain ⟨s, hs, hpr⟩ := List.mem_flatMap.mp hpr
    obtain ⟨e, he, hpr⟩ := List.mem_flatMap.mp hpr
    obtain ⟨p, hp, hpr⟩ := List.mem_map.mp hpr
    obtain ⟨t, rfl⟩ := simplePathsFrom_head g e (g.nodes.length + 1) s [] p
      (by rw [allSimplePaths] at hp; exact hp)
    subst hpr
    exact ⟨s, hs, e, he, s :: t, hp, t, rfl, contigOf_cons s t, rfl⟩
  · decide

/-- C6, witness: the theorem applied to the linear graph's own output pair
`("AATCG", 5)`. -/
theorem c6_contig_reconstruction_witness :
    (∃ s ∈ [("AAT").toList], ∃ e ∈ [("TCG").toList],
        ∃ p ∈ allSimplePaths
          ({ nodes := [("AAT").toList, ("ATC").toList, ("TCG").toList],
             edges := [(("AAT").toList, ("ATC").toList, 1),
               (("ATC").toList, ("TCG").toList, 1)] } : Graph DNA) s e,
        ∃ t : List DNA, p = s :: t ∧
          ("AATCG").toList = s ++ (t.map lastStr).flatten ∧
          5 = ("AATCG").toList.length) ∧
      get_contigs
        ({ nodes := [("AAT").toList, ("ATC").toList, ("TCG").toList],
           edges := [(("AAT").toList, ("ATC").toList, 1),
             (("ATC").toList, ("TCG").toList, 1)] } : Graph DNA)
        [("AAT").toList] [("TCG").toList] = [(("AATCG").toList, 5)] :=
  c6_contig_reconstruction _ _ _ (("AATCG").toList, 5) (by decide)

end DeBruijn

namespace DeBruijn

variable {α : Type} [DecidableEq α]

/-- C7, counterexample. The k-mer "TCG" occurs in both example reads, so
its tabulated count is 2, not the 1 the claim's expected table records. -/
theorem c7_counterexample :
    (("TCG").toList, 2)
        ∈ build_kmer_dict [("AATCGA").toList, ("ATCGAT").toList] 3 ∧
      (("TCG").toList, 1)
        ∉ build_kmer_dict [("AATCGA").toList, ("ATCGAT").toList] 3 := by
  constructor
  · decide
  · decide

/-- C7, amended: for the reads AATCGA and ATCGAT with k = 3, the table is
exactly `{AAT ↦ 1, ATC ↦ 2, TCG ↦ 2, CGA ↦ 2, GAT ↦ 1}` in first-seen
order. -/
theorem c7_table_exact :
    build_kmer_dict [("AATCGA").toList, ("ATCGAT").toList] 3
      = [(("AAT").toList, 1), (("ATC").toList, 2), (("TCG").toList, 2),
         (("CGA").toList, 2), (("GAT").toList, 1)] := by
  decide

/-- C8, counterexample. With k = 0 the tabulation does not fail fast with
any InvalidParameter error: no validation exists in `cut_kmer` or
`build_kmer_dict`, every window start yields the empty k-mer, and the run
produces the table `{"" ↦ 3}` for the read "AAT". -/
theorem c8_counterexample :
    build_kmer_dict [("AAT").toList] 0 = [([], 3)] := by
  decide

/-- C8, amended: for k = 0 the tabulation validates nothing and produces a
table instead of failing: `cut_kmer` accepts every window start, yielding
one empty k-mer per position of the read. -/
theorem c8_no_validation (read : DNA) :
    (cut_kmer read 0).length = read.length ∧
      ∀ x ∈ cut_kmer read 0, x = [] := by
  constructor
  · rw [cut_kmer_length]
    omega
  · intro x hx
    rw [cut_kmer] at hx
    obtain ⟨i, -, rfl⟩ := List.mem_map.mp hx
    exact List.take_zero _

/-- C8, witness: the amended theorem on the read "AAT". -/
theorem c8_no_validation_witness :
    (cut_kmer (("AAT").toList) 0).length = (("AAT").toList).length ∧
      ∀ x ∈ cut_kmer (("AAT").toList) 0, x = [] :=
  c8_no_validation (("AAT").toList)

/-- C9: with all candidates tied on weight and length, the random branch
runs `del path_list[randint(0, len(path_list))]`; Python's `randint` upper
bound is inclusive, so the draw `r = len(path_list)` — here 2, a value the
seeded source can return — indexes past the end and the selection raises
`IndexError` instead of keeping a surviving path. -/
theorem c9_randint_index_error :
    2 ∈ randintRange 0
        ([['a', 'x', 'b'], ['a', 'y', 'b']] : List (List Char)).length ∧
      select_best_path
        ({ nodes := ['a', 'x', 'y', 'b'],
           edges := [('a', 'x', 1), ('x', 'b', 1), ('a', 'y', 1),
             ('y', 'b', 1)] } : Graph Char)
        [['a', 'x', 'b'], ['a', 'y', 'b']] [3, 3] [1, 1] false false 2
        = none := by
  constructor
  · decide
  · have hw : std ([1, 1] : List ℚ) = some 0 := by
      norm_num [std, varianceVal]
    have hl : std (([3, 3] : List Nat).map (fun (n : Nat) => (n : ℚ)))
        = some 0 := by
      norm_num [std, varianceVal]
    simp only [select_best_path, hw, hl]
    rw [if_neg (lt_irrefl (0 : ℚ)), if_neg (lt_irrefl (0 : ℚ))]
    decide

/-- C10: `select_best_path` returns no graph when there are fewer than two
candidate paths (the standard deviation of the weight-average list is
undefined on fewer than two points), and hence `solve_bubble` cannot
resolve a bubble whose enumeration yields a single simple path. -/
theorem c10_single_path_unresolvable :
    (∀ (g : Graph α) (paths : List (List α)) (lengths : List Nat)
        (weights : List ℚ) (de ds : Bool) (r : Nat),
        paths.length < 2 → weights.length = paths.length →
        select_best_path g paths lengths weights de ds r = none) ∧
      (∀ (g : Graph α) (a d : α) (r : Nat),
        (allSimplePaths g a d).length < 2 → solve_bubble g a d r = none) := by
  have h1 : ∀ (g : Graph α) (paths : List (List α)) (lengths : List Nat)
      (weights : List ℚ) (de ds : Bool) (r : Nat), weights.length < 2 →
      select_best_path g paths lengths weights de ds r = none := by
    intro g paths lengths weights de ds r h
    simp only [select_best_path, std_eq_none weights h]
  constructor
  · intro g paths lengths weights de ds r hp hw
    exact h1 g paths lengths weights de ds r (by omega)
  · intro g a d r hlt
    cases heq : mapOpt (path_average_weight g) (allSimplePaths g a d) with
    | none => simp only [solve_bubble, heq]
    | some ws =>
      have hlen := mapOpt_length (path_average_weight g) _ _ heq
      simp only [solve_bubble, heq]
      exact h1 _ _ _ _ _ _ _ (by omega)

/-- C10, witness: an empty candidate list, and a bubble query on a linear
one-edge graph whose enumeration yields a single simple path. -/
theorem c10_single_path_unresolvable_witness :
    select_best_path ({ nodes := [], edges := [] } : Graph Char)
        [] [] [] false false 0 = none ∧
      solve_bubble
        ({ nodes := ['a', 'b'], edges := [('a', 'b', 3)] } : Graph Char)
        'a' 'b' 0 = none :=
  ⟨c10_single_path_unresolvable.1 _ [] [] [] false false 0 (by decide)
      (by decide),
    c10_single_path_unresolvable.2 _ 'a' 'b' 0 (by decide)⟩

end DeBruijn
